import Mathlib

/-!
Verification of the audio response pipeline of HPAI_SalesBot
(src/src/App.jsx, richest App variant): text normalizer
(sanitizeForTTS), sentence segmenter (splitIntoSentencesSmart),
chunk grouper (groupSentencesToChunks), synthesis cache
(getTtsAudioObj / clearTtsCache / newConversation), playback
sequencer (enqueueAndPlay / the ended handler), answer audio ledger
and clip merger (speakTextSmart replay path, audioBufferToWavBlob).

Strings are modelled as lists of characters; the JavaScript regular
expressions are modelled by explicit left-to-right scanners that
reproduce the engine's leftmost, non-overlapping global matching,
including the one backtracking point that matters (the optional
fraction before a negative lookahead).
-/

namespace HPAI

/-! ### Character classes of the JavaScript regexes -/

/-- The JS regex class. Code points of the ECMAScript WhiteSpace and
LineTerminator productions (what both the regex class and String.prototype.trim
use). -/
def jsWs (c : Char) : Bool :=
  c = ' ' || c = '\t' || c = '\n' || c = '\r' || c.toNat = 11 || c.toNat = 12
  || c.toNat = 160 || c.toNat = 5760 || (8192 ≤ c.toNat && c.toNat ≤ 8202)
  || c.toNat = 8232 || c.toNat = 8233 || c.toNat = 8239 || c.toNat = 8287
  || c.toNat = 12288 || c.toNat = 65279

/-- ECMAScript LineTerminator (where a multiline anchor re-matches). -/
def isLineTerm (c : Char) : Bool :=
  c = '\n' || c = '\r' || c.toNat = 8232 || c.toNat = 8233

/-- ASCII letter, the class a-zA-Z. -/
def isAsciiLetterB (c : Char) : Bool :=
  ('a' ≤ c && c ≤ 'z') || ('A' ≤ c && c ≤ 'Z')

/-- The source uses the Unicode letter property in rule 3; modelled on the
ASCII range (all inputs considered in this development are ASCII). -/
def isULetter (c : Char) : Bool := c.isAlpha

/-- The class A-Z0-9 of the sentence-boundary lookahead. -/
def isUD (c : Char) : Bool := ('A' ≤ c && c ≤ 'Z') || c.isDigit

/-- The opening quote/bracket class of the sentence-boundary lookahead. -/
def isQuoteOpen (c : Char) : Bool :=
  c = '"' || c = '\'' || c = '(' || c = '['

/-- The class of sentence-ending punctuation in the split lookbehind. -/
def isEosPunct (c : Char) : Bool := c = '.' || c = '!' || c = '?'

/-- The tail class of the currency-negative rule. -/
def numTailChar (c : Char) : Bool := c.isDigit || c = ',' || c = '.'

def headWs : List Char → Bool
  | [] => false
  | c :: _ => jsWs c

/-! ### Generic fuelled replace scanner

scanM walks the input left to right; at each position the matcher either
matches (returning the replacement text and the rest of the input after the
consumed match) or the scanner emits one character and moves on — exactly
the global-replace behaviour of JS String.replace with a /g regex
(replacements are emitted, never rescanned). The fuel argument is always
called with the input's length, which suffices because every match consumes
at least one character. -/

def scanM (m : Char → List Char → Option (List Char × List Char)) :
    Nat → List Char → List Char
  | 0, l => l
  | _, [] => []
  | f + 1, c :: t =>
    match m c t with
    | some (repl, rest) => repl ++ scanM m f rest
    | none => c :: scanM m f t

/-! ### Rule 1: leading list markers  (text.replace of the pattern
line-start, optional spaces, a hyphen, spaces — with the g and m flags —
by a bullet and a space) -/

/-- Match the rule-1 body at a line start; returns the rest after the match
and whether the last consumed character is a line terminator (so the scanner
knows whether the next position is again a line start). -/
def r1Match (l : List Char) : Option (List Char × Bool) :=
  match l.dropWhile jsWs with
  | c2 :: r2 =>
    if c2 = '-' then
      let run := r2.takeWhile jsWs
      if run.isEmpty then none
      else
        some (r2.dropWhile jsWs,
          match run.getLast? with
          | some ch => isLineTerm ch
          | none => false)
    else none
  | [] => none

def scanR1 : Nat → Bool → List Char → List Char
  | 0, _, l => l
  | _, _, [] => []
  | f + 1, als, c :: t =>
    if als then
      match r1Match (c :: t) with
      | some (rest, lt) => '•' :: ' ' :: scanR1 f lt rest
      | none => c :: scanR1 f (isLineTerm c) t
    else c :: scanR1 f (isLineTerm c) t

/-! ### Rule 2: numeric ranges -/

/-- Greedy parse of digits with an optional fraction part (the regex piece
one-or-more digits then optionally a dot and one-or-more digits). -/
def parseNumG (l : List Char) : Option (List Char × List Char) :=
  let ds := l.takeWhile Char.isDigit
  if ds.isEmpty then none
  else
    match l.dropWhile Char.isDigit with
    | c1 :: r2 =>
      if c1 = '.' then
        let fs := r2.takeWhile Char.isDigit
        if fs.isEmpty then some (ds, c1 :: r2)
        else some (ds ++ '.' :: fs, r2.dropWhile Char.isDigit)
      else some (ds, c1 :: r2)
    | [] => some (ds, [])

/-- The rule-2 lookahead: optional spaces then percent-or-letter, or any
non-digit, or end of input. -/
def la2 (l : List Char) : Bool :=
  (match l.dropWhile jsWs with
   | c :: _ => c = '%' || isAsciiLetterB c
   | [] => false)
  ||
  (match l with
   | c :: _ => !c.isDigit
   | [] => true)

/-- Matcher for rule 2 at one position (number, spaces, hyphen, spaces,
number, lookahead); replacement is the two numbers joined by the word to. -/
def mRange (c : Char) (t : List Char) : Option (List Char × List Char) :=
  match parseNumG (c :: t) with
  | none => none
  | some (n1, r1) =>
    match r1.dropWhile jsWs with
    | c2 :: r2 =>
      if c2 = '-' then
        match parseNumG (r2.dropWhile jsWs) with
        | none => none
        | some (n2, r3) =>
          if la2 r3 then some (n1 ++ " to ".data ++ n2, r3) else none
      else none
    | [] => none

/-! ### Rule 3: intra-word hyphens (letter, ASCII hyphen, lookahead letter) -/

def mHyphenWord (c : Char) (t : List Char) : Option (List Char × List Char) :=
  if isULetter c then
    match t with
    | c2 :: d :: r =>
      if c2 = '-' then
        if isULetter d then some ([c, ' '], d :: r) else none
      else none
    | _ => none
  else none

/-! ### Rule 4: plain negative numbers -/

/-- The rule-4 negative lookahead: next character is neither a digit nor a
hyphen (true at end of input). -/
def laNeg (l : List Char) : Bool :=
  match l with
  | c :: _ => !(c.isDigit || c = '-')
  | [] => true

/-- Parse the number after the hyphen of rule 4, with the engine's
backtracking: the greedy parse including the fraction is tried first
against the lookahead; on failure the fraction is given back. -/
def negAfterDash (l : List Char) : Option (List Char × List Char) :=
  let ds := l.takeWhile Char.isDigit
  if ds.isEmpty then none
  else
    let r1 := l.dropWhile Char.isDigit
    match r1 with
    | '.' :: r2 =>
      let fs := r2.takeWhile Char.isDigit
      if fs.isEmpty then (if laNeg r1 then some (ds, r1) else none)
      else
        let r3 := r2.dropWhile Char.isDigit
        if laNeg r3 then some (ds ++ '.' :: fs, r3)
        else if laNeg r1 then some (ds, r1) else none
    | _ => if laNeg r1 then some (ds, r1) else none

/-- Scanner for rule 4. The first capture is either the start anchor (only
at position zero, tried first) or one non-digit character, which is kept in
the replacement. -/
def scanNeg : Nat → Bool → List Char → List Char
  | 0, _, l => l
  | _, _, [] => []
  | f + 1, atStart, c :: t =>
    match
      (if atStart then
        if c = '-' then
          match negAfterDash t with
          | some (n, rest) => some ("negative ".data ++ n, rest)
          | none => none
        else none
      else none) with
    | some (repl, rest) => repl ++ scanNeg f false rest
    | none =>
      match
        (if c.isDigit then none
         else
          match t with
          | c2 :: r =>
            if c2 = '-' then
              match negAfterDash r with
              | some (n, rest) => some (c :: ("negative ".data ++ n), rest)
              | none => none
            else none
          | [] => none) with
      | some (repl, rest) => repl ++ scanNeg f false rest
      | none => c :: scanNeg f false t

/-! ### Rule 4.1: currency negatives -/

def mCurrencyNeg (c : Char) (t : List Char) : Option (List Char × List Char) :=
  if c = '$' || c = '€' || c = '£' then
    match t with
    | c2 :: r =>
      if c2 = '-' then
        let ds := r.takeWhile Char.isDigit
        if ds.isEmpty then none
        else
          let r1 := r.dropWhile Char.isDigit
          some ("negative ".data ++ c :: (ds ++ r1.takeWhile numTailChar),
                r1.dropWhile numTailChar)
      else none
    | [] => none
  else none

/-! ### Rule 4.2: negative percentages -/

/-- After the number of rule 4.2: optional spaces then a percent sign. -/
def pctTail (n : List Char) (r : List Char) :
    Option (List Char × List Char) :=
  match r.dropWhile jsWs with
  | c :: rest =>
    if c = '%' then some ("negative ".data ++ n ++ " percent".data, rest)
    else none
  | [] => none

def mNegPercent (c : Char) (t : List Char) : Option (List Char × List Char) :=
  if c = '-' then
    let ds := t.takeWhile Char.isDigit
    if ds.isEmpty then none
    else
      let r1 := t.dropWhile Char.isDigit
      match r1 with
      | '.' :: r2 =>
        let fs := r2.takeWhile Char.isDigit
        if fs.isEmpty then pctTail ds r1
        else
          match pctTail (ds ++ '.' :: fs) (r2.dropWhile Char.isDigit) with
          | some res => some res
          | none => pctTail ds r1
      | _ => pctTail ds r1
  else none

/-! ### Rule 5: en/em dashes become a comma and a space -/

def dashPause : List Char → List Char
  | [] => []
  | c :: t =>
    if c = '–' || c = '—' then ',' :: ' ' :: dashPause t
    else c :: dashPause t

/-! ### Rule 6: whitespace runs of length at least two collapse to one
space, then both ends are trimmed -/

/-- Replace every maximal whitespace run of length at least two by a single
space; runs of length one are left untouched. The flag records being inside
a run that has already been replaced. -/
def collapseWs : Bool → List Char → List Char
  | _, [] => []
  | inRun, c :: t =>
    if jsWs c then
      if inRun then collapseWs true t
      else if headWs t then ' ' :: collapseWs true t
      else c :: collapseWs false t
    else c :: collapseWs false t

def trimL (l : List Char) : List Char := l.dropWhile jsWs

def trimR (l : List Char) : List Char := (l.reverse.dropWhile jsWs).reverse

def jsTrim (l : List Char) : List Char := trimR (trimL l)

/-- No two adjacent whitespace characters (the shape of collapsed text). -/
def noWW : List Char → Bool
  | [] => true
  | [_] => true
  | a :: b :: t => (!(jsWs a && jsWs b)) && noWW (b :: t)

/-! ### sanitizeForTTS -/

def sanitizeCore (l : List Char) : List Char :=
  if l.isEmpty then []
  else
    let t1 := scanR1 l.length true l
    let t2 := scanM mRange t1.length t1
    let t3 := scanM mHyphenWord t2.length t2
    let t4 := scanNeg t3.length true t3
    let t5 := scanM mCurrencyNeg t4.length t4
    let t6 := scanM mNegPercent t5.length t5
    jsTrim (collapseWs false (dashPause t6))

def sanitizeForTTS (s : String) : String := String.mk (sanitizeCore s.data)

/-! ### Sentence segmenter -/

/-- The fixed abbreviation list ABBR of the source, in source order. -/
def ABBR : List String :=
  ["U.S.", "U.K.", "e.g.", "i.e.", "etc.", "vs.",
   "Mr.", "Mrs.", "Ms.", "Dr.", "Prof.",
   "Inc.", "Ltd.", "Jr.", "Sr.", "St.", "No.",
   "Jan.", "Feb.", "Mar.", "Apr.", "Jun.", "Jul.", "Aug.", "Sep.", "Sept.",
   "Oct.", "Nov.", "Dec."]

/-- Literal, non-overlapping, left-to-right replaceAll (the behaviour of JS
String.replaceAll with a string pattern). -/
def replaceAllL (pat repl : List Char) : Nat → List Char → List Char
  | 0, l => l
  | _, [] => []
  | f + 1, c :: t =>
    if !pat.isEmpty ∧ (c :: t).take pat.length = pat then
      repl ++ replaceAllL pat repl f ((c :: t).drop pat.length)
    else c :: replaceAllL pat repl f t

/-- For each abbreviation, in order, replace it by itself with every period
turned into the sentinel character. -/
def protectAbbrDots (l : List Char) : List Char :=
  ABBR.foldl
    (fun acc a =>
      replaceAllL a.data (a.data.map (fun ch => if ch = '.' then '§' else ch))
        acc.length acc)
    l

/-- Every sentinel character, wherever it came from, becomes a period. -/
def restoreAbbrDots (l : List Char) : List Char :=
  l.map (fun c => if c = '§' then '.' else c)

/-- Collapse every whitespace run (length one or more) to a single space —
the replace of one-or-more whitespace by one space used by the segmenter. -/
def collapseAll : Bool → List Char → List Char
  | _, [] => []
  | inRun, c :: t =>
    if jsWs c then
      if inRun then collapseAll true t else ' ' :: collapseAll true t
    else c :: collapseAll false t

/-- The boundary lookahead: an optional opening quote or bracket, then an
uppercase letter or digit. -/
def laBoundary (l : List Char) : Bool :=
  match l with
  | [] => false
  | q :: rest =>
    (isQuoteOpen q &&
      (match rest with
       | d :: _ => isUD d
       | [] => false))
    || isUD q

/-- Split on a whitespace run preceded by sentence-ending punctuation and
followed (lookahead) by something that looks like a sentence start. The
accumulator holds the current fragment reversed. -/
def splitGo : Nat → List Char → List Char → List (List Char)
  | 0, acc, l => [acc.reverse ++ l]
  | _, acc, [] => [acc.reverse]
  | f + 1, acc, c :: t =>
    if jsWs c
        && (match acc with
            | p :: _ => isEosPunct p
            | [] => false)
        && laBoundary (t.dropWhile jsWs)
    then acc.reverse :: splitGo f [] (t.dropWhile jsWs)
    else splitGo f (c :: acc) t

def splitIntoSentencesSmart (text : String) : List String :=
  if text.data.isEmpty then []
  else
    let protectedText := protectAbbrDots text.data
    let collapsed := jsTrim (collapseAll false protectedText)
    let parts := splitGo collapsed.length [] collapsed
    ((((parts.map restoreAbbrDots).map jsTrim).filter
        (fun p => !p.isEmpty)).map String.mk)

/-! ### Chunk grouper -/

/-- The join of an array of sentences with a single space, as in
cur.join with a space separator. -/
def joinSp : List String → String
  | [] => ""
  | [s] => s
  | s :: rest => s ++ " " ++ joinSp rest

def groupLoop (maxChars minSent maxSent : Nat) :
    List String → List String → Nat → List String
  | [], cur, _ => if cur.isEmpty then [] else [joinSp cur]
  | s :: rest, cur, curLen =>
    let willLen := curLen + (if curLen = 0 then 0 else 1) + s.length
    if maxSent ≤ cur.length ∨ (minSent ≤ cur.length ∧ maxChars < willLen) then
      joinSp cur :: groupLoop maxChars minSent maxSent rest [s] s.length
    else
      groupLoop maxChars minSent maxSent rest (cur ++ [s]) willLen

def groupSentencesToChunks (maxChars minSent maxSent : Nat)
    (sentences : List String) : List String :=
  groupLoop maxChars minSent maxSent sentences [] 0

/-- Ghost companion of groupLoop that returns, instead of each chunk's
joined text, the list of sentences that went into the chunk. -/
def groupPartsLoop (maxChars minSent maxSent : Nat) :
    List String → List String → Nat → List (List String)
  | [], cur, _ => if cur.isEmpty then [] else [cur]
  | s :: rest, cur, curLen =>
    let willLen := curLen + (if curLen = 0 then 0 else 1) + s.length
    if maxSent ≤ cur.length ∨ (minSent ≤ cur.length ∧ maxChars < willLen) then
      cur :: groupPartsLoop maxChars minSent maxSent rest [s] s.length
    else
      groupPartsLoop maxChars minSent maxSent rest (cur ++ [s]) willLen

def groupParts (maxChars minSent maxSent : Nat)
    (sentences : List String) : List (List String) :=
  groupPartsLoop maxChars minSent maxSent sentences [] 0

/-! ### Playback sequencer

The single audio element and the URL queue (ttsQueueRef). Playable handles
are numbered. A play attempt that fails (for example an autoplay
restriction) is caught and discarded in the source — the element is then
left paused on the assigned source. -/

structure AudioEl where
  paused : Bool
  src : Option Nat
deriving DecidableEq

structure TtsQueueState where
  queue : List Nat
  audio : AudioEl
deriving DecidableEq

/-- Assign a source and attempt to play; a rejected play promise is caught
and ignored, leaving the element paused. -/
def tryPlay (playOk : Nat → Bool) (h : Nat) : AudioEl :=
  if playOk h then { paused := false, src := some h }
  else { paused := true, src := some h }

/-- Push the handle; if the element is paused and the queue just became a
single item, assign the head and attempt playback. -/
def enqueueAndPlay (playOk : Nat → Bool) (st : TtsQueueState) (h : Nat) :
    TtsQueueState :=
  let q := st.queue ++ [h]
  if st.audio.paused ∧ q.length = 1 then
    { queue := q, audio := tryPlay playOk h }
  else { queue := q, audio := st.audio }

/-- The ended handler: shift the finished head, then either start the next
queued handle or fall idle. It only ever runs when the element finished
playing (so the element is paused at entry). -/
def onEnded (playOk : Nat → Bool) (st : TtsQueueState) : TtsQueueState :=
  let q := st.queue.drop 1
  match q with
  | [] => { queue := [], audio := { paused := true, src := st.audio.src } }
  | h :: _ => { queue := q, audio := tryPlay playOk h }

/-! ### Synthesis caches and the full-clear operation

ttsCacheRef is the plain url cache used by the legacy speakText path;
ttsObjCacheRef is the chunk-object cache used by getTtsAudioObj (key is the
language, two colons, the sanitized text). Both are association lists in
insertion order. Fetches are modelled by handing out fresh handle numbers
and counting network requests. -/

structure TtsCacheState where
  ttsCache : List (String × Nat)
  ttsObjCache : List (String × Nat)
  revoked : List Nat
  fetchCount : Nat
  nextUrl : Nat
deriving DecidableEq

def lookupA (k : String) : List (String × Nat) → Option Nat
  | [] => none
  | (k2, v) :: t => if k2 = k then some v else lookupA k t

/-- getTtsAudioObj: cache hit returns the stored object; a miss performs
one synthesis fetch, wraps the body into a fresh handle and stores it. -/
def getTtsAudioObj (st : TtsCacheState) (chunkText lang : String) :
    Nat × TtsCacheState :=
  let key := lang ++ "::" ++ sanitizeForTTS chunkText
  match lookupA key st.ttsObjCache with
  | some u => (u, st)
  | none =>
    (st.nextUrl,
     { st with
       ttsObjCache := st.ttsObjCache ++ [(key, st.nextUrl)],
       fetchCount := st.fetchCount + 1,
       nextUrl := st.nextUrl + 1 })

/-- clearTtsCache revokes and clears only the plain url cache of the legacy
speakText path; it does not touch ttsObjCacheRef. -/
def clearTtsCache (st : TtsCacheState) : TtsCacheState :=
  { st with
    revoked := st.revoked ++ st.ttsCache.map Prod.snd,
    ttsCache := [] }

/-- newConversation: of the audio state, only clearTtsCache is invoked (the
remaining statements reset mic, websocket and UI state). -/
def newConversation (st : TtsCacheState) : TtsCacheState := clearTtsCache st

/-! ### Answer audio ledger and the replay path -/

/-- currentAnswerAudioRef: the key is the answer text, items the raw
segment buffers recorded in generation order, mergedUrl the lazily built
merged-clip handle. -/
structure CurrentAnswerAudio where
  key : String
  items : List (List Int)
  mergedUrl : Option Nat
deriving DecidableEq

/-- resetCurrentAnswerAudio: revoke the old merged url if any and re-key an
empty ledger. Returns the new state and the urls revoked. -/
def resetCurrentAnswerAudio (st : CurrentAnswerAudio) (k : String) :
    CurrentAnswerAudio × List Nat :=
  match st.mergedUrl with
  | some u => ({ key := k, items := [], mergedUrl := none }, [u])
  | none => ({ key := k, items := [], mergedUrl := none }, [])

/-- Outcome of one run of the replay branch of speakTextSmart. -/
structure ReplayOutcome where
  state : CurrentAnswerAudio
  mergeComputations : Nat
  revokedUrls : List Nat
  playedUrl : Option Nat
  nextUrl : Nat
deriving DecidableEq

/-- The replay branch of speakTextSmart: with no recorded items it falls
back to the progressive path; otherwise it decodes and merges the items
(one decode-encode pass, counted), revokes the previous merged url and
stores then plays the new one. The stored mergedUrl is never consulted
before doing the work. -/
def speakTextSmartReplay (st : CurrentAnswerAudio)
    (mergeComputations nextUrl : Nat) : ReplayOutcome :=
  if st.items.isEmpty then
    { state := st, mergeComputations := mergeComputations,
      revokedUrls := [], playedUrl := none, nextUrl := nextUrl }
  else
    { state := { st with mergedUrl := some nextUrl },
      mergeComputations := mergeComputations + 1,
      revokedUrls := (match st.mergedUrl with | some u => [u] | none => []),
      playedUrl := some nextUrl,
      nextUrl := nextUrl + 1 }

/-- What the replay branch plays, as a function of the ledger and the text
handed to speakTextSmart: the guard reads only the items, and the merge
reads only the items — the stored key is never compared against the text. -/
inductive ReplayAction where
  | playMerged (items : List (List Int))
  | progressive (text : String)
deriving DecidableEq

def replayDispatch (st : CurrentAnswerAudio) (fullText : String) :
    ReplayAction :=
  if st.items.isEmpty then ReplayAction.progressive fullText
  else ReplayAction.playMerged st.items

/-! ### Clip merger and the uncompressed container encoder

Decoded audio buffers carry per-channel sample lists. Sample values are
modelled as exact rationals (the source holds IEEE floats in the unit
interval; the claims proved below concern sample counts and layout, not
rounding). -/

structure AudioBuffer where
  numberOfChannels : Nat
  sampleRate : Nat
  length : Nat
  channelData : List (List ℚ)
deriving DecidableEq

def createBuffer (channels total rate : Nat) : AudioBuffer :=
  { numberOfChannels := channels, sampleRate := rate, length := total,
    channelData := List.replicate channels (List.replicate total 0) }

/-- TypedArray.set: overwrite dst starting at off with src. -/
def typedArraySet (dst src : List ℚ) (off : Nat) : List ℚ :=
  dst.take off ++ src ++ dst.drop (off + src.length)

/-- One pass of the inner channel loop: copy every channel of b into the
destination channels at the current offset. -/
def copyChans (chs : Nat) (dstChans : List (List ℚ)) (b : AudioBuffer)
    (off : Nat) : List (List ℚ) :=
  (List.range chs).map
    (fun ch =>
      typedArraySet (dstChans.getD ch []) (b.channelData.getD ch []) off)

/-- The merge step of the replay path: sample rate and channel count are
taken from the first decoded buffer, the output length is the sum of the
segment lengths, and each segment's channels are copied in order at the
running offset. -/
def mergeBuffers (decoded : List AudioBuffer) : AudioBuffer :=
  let first := decoded.headD (createBuffer 0 0 0)
  let channels := first.numberOfChannels
  let totalLen := (decoded.map AudioBuffer.length).sum
  let fin :=
    decoded.foldl
      (fun acc b => (copyChans channels acc.1 b acc.2, acc.2 + b.length))
      ((createBuffer channels totalLen first.sampleRate).channelData, 0)
  { numberOfChannels := channels, sampleRate := first.sampleRate,
    length := totalLen, channelData := fin.1 }

/-- Truncation toward zero (the ToInt conversion of DataView.setInt16). -/
def ratTrunc (q : ℚ) : Int :=
  if q < 0 then -(Int.floor (-q)) else Int.floor q

/-- Clamp to the unit interval and scale to a 16-bit sample, as in the
inner loop of audioBufferToWavBlob. -/
def floatTo16 (x : ℚ) : Int :=
  let s := max (-1) (min 1 x)
  ratTrunc (if s < 0 then s * 32768 else s * 32767)

/-- The two little-endian bytes setInt16 writes (two's complement). -/
def int16Bytes (v : Int) : List Nat :=
  let n := (v % 65536).toNat
  [n % 256, n / 256]

def u16v (v : Nat) : List Nat := [v % 256, v / 256 % 256]

def u32v (v : Nat) : List Nat :=
  [v % 256, v / 256 % 256, v / 65536 % 256, v / 16777216 % 256]

def asciiBytes (s : String) : List Nat := s.data.map (fun c => c.toNat % 256)

/-- The interleaved data section: frame by frame, channel by channel, two
bytes per sample. -/
def interleavedData (buf : AudioBuffer) : List Nat :=
  ((List.range buf.length).map
    (fun i =>
      ((List.range buf.numberOfChannels).map
        (fun ch =>
          int16Bytes (floatTo16 ((buf.channelData.getD ch []).getD i 0)))).flatten)).flatten

/-- The 44-byte RIFF/WAVE header written by audioBufferToWavBlob. -/
def wavHeader (buf : AudioBuffer) : List Nat :=
  let blockAlign := buf.numberOfChannels * 2
  let dataSize := buf.length * blockAlign
  asciiBytes "RIFF" ++ u32v (44 + dataSize - 8)
  ++ asciiBytes "WAVE"
  ++ asciiBytes "fmt " ++ u32v 16 ++ u16v 1 ++ u16v buf.numberOfChannels
  ++ u32v buf.sampleRate ++ u32v (buf.sampleRate * blockAlign)
  ++ u16v blockAlign ++ u16v 16
  ++ asciiBytes "data" ++ u32v dataSize

/-- The full byte content of the WAV blob. -/
def audioBufferToWavBlob (buf : AudioBuffer) : List Nat :=
  wavHeader buf ++ interleavedData buf

/-! ### Scenario constants -/

def scenarioAInput : String :=
  "Dr. Smith said the rate is -5%. That's a 3-5 point drop."

/-- Contiguous-substring test: pat occurs somewhere in l. -/
def occursIn (pat : List Char) : List Char → Bool
  | [] => pat.isEmpty
  | c :: t => decide ((c :: t).take pat.length = pat) || occursIn pat t

/-! ## Helper lemmas -/

theorem mem_of_dropWhile {α} (p : α → Bool) {a : α} :
    ∀ {l : List α}, a ∈ l.dropWhile p → a ∈ l := by
  intro l
  induction l with
  | nil => intro h; exact h
  | cons c t ih =>
    intro h
    by_cases hc : p c
    · rw [List.dropWhile_cons_of_pos hc] at h
      exact List.mem_cons_of_mem c (ih h)
    · rwa [List.dropWhile_cons_of_neg hc] at h

theorem mem_of_jsTrim {a : Char} {l : List Char} (h : a ∈ jsTrim l) :
    a ∈ l := by
  unfold jsTrim trimR trimL at h
  rw [List.mem_reverse] at h
  have h2 := mem_of_dropWhile jsWs h
  rw [List.mem_reverse] at h2
  exact mem_of_dropWhile jsWs h2

theorem sentinel_not_mem_restore (l : List Char) :
    '§' ∉ restoreAbbrDots l := by
  intro h
  unfold restoreAbbrDots at h
  rcases List.mem_map.mp h with ⟨c, _, hc⟩
  by_cases hcs : c = '§' <;> simp [hcs] at hc

/-! ### The normalizer is the identity on hyphen-free text (rules 1 to 4.2)
and on dash-free text (rule 5) -/

theorem parseNumG_rest :
    ∀ {l n r : List Char}, parseNumG l = some (n, r) →
      r = l.dropWhile Char.isDigit ∨
      ∃ r2, l.dropWhile Char.isDigit = '.' :: r2 ∧
        r = r2.dropWhile Char.isDigit := by
  intro l n r h
  unfold parseNumG at h
  by_cases hds : (l.takeWhile Char.isDigit).isEmpty = true
  · rw [if_pos hds] at h
    exact absurd h (by simp)
  · rw [if_neg hds] at h
    split at h
    next c1 r2 hr1 =>
      by_cases hc1 : c1 = '.'
      · rw [if_pos hc1] at h
        by_cases hfs : (r2.takeWhile Char.isDigit).isEmpty = true
        · rw [if_pos hfs] at h
          simp only [Option.some.injEq, Prod.mk.injEq] at h
          subst hc1
          exact Or.inl (h.2.symm.trans hr1.symm)
        · rw [if_neg hfs] at h
          simp only [Option.some.injEq, Prod.mk.injEq] at h
          subst hc1
          exact Or.inr ⟨r2, hr1, h.2.symm⟩
      · rw [if_neg hc1] at h
        simp only [Option.some.injEq, Prod.mk.injEq] at h
        exact Or.inl (h.2.symm.trans hr1.symm)
    next hr1 =>
      simp only [Option.some.injEq, Prod.mk.injEq] at h
      exact Or.inl (h.2.symm.trans hr1.symm)

theorem parseNumG_sub {l n r : List Char} (h : parseNumG l = some (n, r))
    {a : Char} (ha : a ∈ r) : a ∈ l := by
  rcases parseNumG_rest h with hr | ⟨r2, hr2, hr⟩
  · exact mem_of_dropWhile _ (hr ▸ ha)
  · rw [hr] at ha
    have : a ∈ '.' :: r2 := List.mem_cons_of_mem _ (mem_of_dropWhile _ ha)
    rw [← hr2] at this
    exact mem_of_dropWhile _ this

theorem mRange_none {c : Char} {t : List Char} (h : '-' ∉ c :: t) :
    mRange c t = none := by
  unfold mRange
  split
  next => rfl
  next n1 r1 hp =>
    split
    next c2 r2 hd =>
      have hc2m : c2 ∈ c :: t := by
        refine parseNumG_sub hp (mem_of_dropWhile jsWs ?_)
        rw [hd]
        exact List.mem_cons_self c2 r2
      have hc2 : ¬(c2 = '-') := fun he => h (he ▸ hc2m)
      rw [if_neg hc2]
    next => rfl

theorem mHyphenWord_none {c : Char} {t : List Char} (h : '-' ∉ c :: t) :
    mHyphenWord c t = none := by
  unfold mHyphenWord
  by_cases hl : isULetter c = true
  · rw [if_pos hl]
    split
    next c2 d r =>
      have hc2 : ¬(c2 = '-') := by
        intro he
        subst he
        exact h (List.mem_cons_of_mem c (List.mem_cons_self _ _))
      rw [if_neg hc2]
    all_goals rfl
  · rw [if_neg hl]

theorem mCurrencyNeg_none {c : Char} {t : List Char} (h : '-' ∉ c :: t) :
    mCurrencyNeg c t = none := by
  unfold mCurrencyNeg
  by_cases hc : (c = '$' || c = '€' || c = '£') = true
  · rw [if_pos hc]
    cases t with
    | nil => rfl
    | cons c2 r =>
      have hc2 : ¬(c2 = '-') := fun he => by
        refine h ?_
        rw [he] at *
        exact List.mem_cons_of_mem c (List.mem_cons_self _ _)
      simp [hc2]
  · rw [if_neg hc]

theorem mNegPercent_none {c : Char} {t : List Char} (h : '-' ∉ c :: t) :
    mNegPercent c t = none := by
  unfold mNegPercent
  have hc : ¬(c = '-') := fun he => h (he ▸ List.mem_cons_self c t)
  simp [hc]

theorem r1Match_none {l : List Char} (h : '-' ∉ l) : r1Match l = none := by
  unfold r1Match
  cases hd : l.dropWhile jsWs with
  | nil => rfl
  | cons c2 r2 =>
    have hc2m : c2 ∈ l := by
      refine mem_of_dropWhile jsWs ?_
      rw [hd]
      exact List.mem_cons_self c2 r2
    have hc2 : ¬(c2 = '-') := fun he => h (he ▸ hc2m)
    simp [hc2]

theorem scanM_id (m : Char → List Char → Option (List Char × List Char))
    (hm : ∀ c t, '-' ∉ c :: t → m c t = none) :
    ∀ (f : Nat) (l : List Char), '-' ∉ l → scanM m f l = l := by
  intro f
  induction f with
  | zero => intro l _; cases l <;> rfl
  | succ f ih =>
    intro l h
    cases l with
    | nil => rfl
    | cons c t =>
      have ht : '-' ∉ t := fun hmem => h (List.mem_cons_of_mem c hmem)
      show (match m c t with
        | some (repl, rest) => repl ++ scanM m f rest
        | none => c :: scanM m f t) = c :: t
      rw [hm c t h]
      rw [ih t ht]

theorem scanR1_id : ∀ (f : Nat) (b : Bool) (l : List Char),
    '-' ∉ l → scanR1 f b l = l := by
  intro f
  induction f with
  | zero => intro b l _; cases l <;> rfl
  | succ f ih =>
    intro b l h
    cases l with
    | nil => rfl
    | cons c t =>
      have ht : '-' ∉ t := fun hmem => h (List.mem_cons_of_mem c hmem)
      cases b with
      | false =>
        show c :: scanR1 f (isLineTerm c) t = c :: t
        rw [ih _ t ht]
      | true =>
        show (match r1Match (c :: t) with
          | some (rest, lt) => '•' :: ' ' :: scanR1 f lt rest
          | none => c :: scanR1 f (isLineTerm c) t) = c :: t
        rw [r1Match_none h]
        rw [ih _ t ht]

theorem scanNeg_id : ∀ (f : Nat) (b : Bool) (l : List Char),
    '-' ∉ l → scanNeg f b l = l := by
  intro f
  induction f with
  | zero => intro b l _; cases l <;> rfl
  | succ f ih =>
    intro b l h
    cases l with
    | nil => rfl
    | cons c t =>
      have hc : ¬(c = '-') := fun he => h (he ▸ List.mem_cons_self c t)
      have ht : '-' ∉ t := fun hmem => h (List.mem_cons_of_mem c hmem)
      have hbr1 : (if b = true then
          if c = '-' then
            match negAfterDash t with
            | some (n, rest) => some ("negative ".data ++ n, rest)
            | none => none
          else none
        else none) = none := by
        cases b with
        | false => rfl
        | true => simp [hc]
      have hbr2 : (if c.isDigit = true then none
         else
          match t with
          | c2 :: r =>
            if c2 = '-' then
              match negAfterDash r with
              | some (n, rest) => some (c :: ("negative ".data ++ n), rest)
              | none => none
            else none
          | [] => none) = none := by
        by_cases hcd : c.isDigit = true
        · rw [if_pos hcd]
        · rw [if_neg hcd]
          cases t with
          | nil => rfl
          | cons c2 r =>
            have hc2 : ¬(c2 = '-') := fun he => ht (he ▸ List.mem_cons_self c2 r)
            simp [hc2]
      simp only [scanNeg, hbr1, hbr2]
      rw [ih false t ht]

theorem dashPause_id : ∀ (l : List Char),
    '–' ∉ l → '—' ∉ l → dashPause l = l := by
  intro l
  induction l with
  | nil => intro _ _; rfl
  | cons c t ih =>
    intro h1 h2
    have hca : ¬(c = '–') := fun he => h1 (he ▸ List.mem_cons_self c t)
    have hcb : ¬(c = '—') := fun he => h2 (he ▸ List.mem_cons_self c t)
    have ht1 : '–' ∉ t := fun hm => h1 (List.mem_cons_of_mem c hm)
    have ht2 : '—' ∉ t := fun hm => h2 (List.mem_cons_of_mem c hm)
    unfold dashPause
    simp [hca, hcb, ih ht1 ht2]

/-! ### Idempotence of rule 6 (collapse and trim) -/

theorem noWW_cons2 (a b : Char) (t : List Char) :
    noWW (a :: b :: t) = ((!(jsWs a && jsWs b)) && noWW (b :: t)) := rfl

theorem noWW_tail {c : Char} {t : List Char} (h : noWW (c :: t) = true) :
    noWW t = true := by
  cases t with
  | nil => rfl
  | cons d r =>
    rw [noWW_cons2, Bool.and_eq_true] at h
    exact h.2

theorem noWW_cons_of {c : Char} {t : List Char} (hc : jsWs c = false)
    (h : noWW t = true) : noWW (c :: t) = true := by
  cases t with
  | nil => rfl
  | cons d r =>
    rw [noWW_cons2, hc, h]
    rfl

theorem noWW_cons_of_next {c d : Char} {t : List Char}
    (hd : jsWs d = false) (h : noWW (d :: t) = true) :
    noWW (c :: d :: t) = true := by
  rw [noWW_cons2, hd, h]
  simp

theorem collapseWs_cons_ws_inRun {c : Char} {t : List Char}
    (hc : jsWs c = true) : collapseWs true (c :: t) = collapseWs true t := by
  simp [collapseWs, hc]

theorem collapseWs_cons_ws_run {c : Char} {t : List Char}
    (hc : jsWs c = true) (hh : headWs t = true) :
    collapseWs false (c :: t) = ' ' :: collapseWs true t := by
  simp [collapseWs, hc, hh]

theorem collapseWs_cons_ws_norun {c : Char} {t : List Char}
    (hc : jsWs c = true) (hh : headWs t = false) :
    collapseWs false (c :: t) = c :: collapseWs false t := by
  simp [collapseWs, hc, hh]

theorem collapseWs_cons_nws {c : Char} {t : List Char} (b : Bool)
    (hc : jsWs c = false) :
    collapseWs b (c :: t) = c :: collapseWs false t := by
  simp [collapseWs, hc]

theorem collapseWs_true_head : ∀ t : List Char,
    collapseWs true t = [] ∨
    ∃ d r, collapseWs true t = d :: r ∧ jsWs d = false := by
  intro t
  induction t with
  | nil => exact Or.inl rfl
  | cons c t ih =>
    by_cases hc : jsWs c = true
    · rw [collapseWs_cons_ws_inRun hc]
      exact ih
    · have hc2 : jsWs c = false := by simpa using hc
      rw [collapseWs_cons_nws true hc2]
      exact Or.inr ⟨c, collapseWs false t, rfl, hc2⟩

theorem collapseWs_false_head : ∀ t : List Char, headWs t = false →
    collapseWs false t = [] ∨
    ∃ d r, collapseWs false t = d :: r ∧ jsWs d = false := by
  intro t ht
  cases t with
  | nil => exact Or.inl rfl
  | cons d r =>
    have hd : jsWs d = false := ht
    rw [collapseWs_cons_nws false hd]
    exact Or.inr ⟨d, collapseWs false r, rfl, hd⟩

theorem collapseWs_noWW : ∀ (t : List Char) (b : Bool),
    noWW (collapseWs b t) = true := by
  intro t
  induction t with
  | nil => intro b; rfl
  | cons c t ih =>
    intro b
    by_cases hc : jsWs c = true
    · cases b with
      | true =>
        rw [collapseWs_cons_ws_inRun hc]
        exact ih true
      | false =>
        by_cases hh : headWs t = true
        · rw [collapseWs_cons_ws_run hc hh]
          rcases collapseWs_true_head t with he | ⟨d, r, he, hd⟩
          · rw [he]; rfl
          · rw [he]
            exact noWW_cons_of_next hd (he ▸ ih true)
        · have hh2 : headWs t = false := by simpa using hh
          rw [collapseWs_cons_ws_norun hc hh2]
          rcases collapseWs_false_head t hh2 with he | ⟨d, r, he, hd⟩
          · rw [he]; rfl
          · rw [he]
            exact noWW_cons_of_next hd (he ▸ ih false)
    · have hc2 : jsWs c = false := by simpa using hc
      rw [collapseWs_cons_nws b hc2]
      exact noWW_cons_of hc2 (ih false)

theorem collapseWs_id : ∀ l : List Char, noWW l = true →
    collapseWs false l = l := by
  intro l
  induction l with
  | nil => intro _; rfl
  | cons c t ih =>
    intro h
    by_cases hc : jsWs c = true
    · have hh : headWs t = false := by
        cases t with
        | nil => rfl
        | cons d r =>
          by_cases hd : jsWs d = true
          · exfalso
            rw [noWW_cons2, hc, hd] at h
            simp at h
          · simpa using hd
      rw [collapseWs_cons_ws_norun hc hh, ih (noWW_tail h)]
    · have hc2 : jsWs c = false := by simpa using hc
      rw [collapseWs_cons_nws false hc2, ih (noWW_tail h)]

theorem noWW_dropWhile (p : Char → Bool) :
    ∀ l : List Char, noWW l = true → noWW (l.dropWhile p) = true := by
  intro l
  induction l with
  | nil => intro _; rfl
  | cons c t ih =>
    intro h
    by_cases hc : p c = true
    · rw [List.dropWhile_cons_of_pos hc]
      exact ih (noWW_tail h)
    · rw [List.dropWhile_cons_of_neg (by simpa using hc)]
      exact h

theorem dropWhile_idem (p : Char → Bool) :
    ∀ l : List Char, (l.dropWhile p).dropWhile p = l.dropWhile p := by
  intro l
  induction l with
  | nil => rfl
  | cons c t ih =>
    by_cases hc : p c = true
    · rw [List.dropWhile_cons_of_pos hc]
      exact ih
    · rw [List.dropWhile_cons_of_neg (by simpa using hc),
        List.dropWhile_cons_of_neg (by simpa using hc)]

theorem dropWhile_append_last (p : Char → Bool) {y : Char}
    (hy : p y = false) :
    ∀ zs : List Char, (zs ++ [y]).dropWhile p = zs.dropWhile p ++ [y] := by
  have hy2 : ¬ p y = true := by simp [hy]
  intro zs
  induction zs with
  | nil =>
    show ([y]).dropWhile p = ([] : List Char).dropWhile p ++ [y]
    rw [List.dropWhile_cons_of_neg hy2]
    rfl
  | cons z t ih =>
    by_cases hz : p z = true
    · rw [List.cons_append, List.dropWhile_cons_of_pos hz,
        List.dropWhile_cons_of_pos hz, ih]
    · rw [List.cons_append, List.dropWhile_cons_of_neg (by simpa using hz),
        List.dropWhile_cons_of_neg (by simpa using hz), List.cons_append]

theorem trimR_cons {c : Char} (hc : jsWs c = false) (r : List Char) :
    trimR (c :: r) = c :: trimR r := by
  unfold trimR
  rw [List.reverse_cons, dropWhile_append_last jsWs hc, List.reverse_append]
  rfl

theorem trimR_idem (l : List Char) : trimR (trimR l) = trimR l := by
  unfold trimR
  rw [List.reverse_reverse, dropWhile_idem]

theorem dropWhile_head_false (p : Char → Bool) :
    ∀ {l : List Char} {c : Char} {r : List Char},
      l.dropWhile p = c :: r → p c = false := by
  intro l
  induction l with
  | nil => intro c r h; exact absurd h (by simp)
  | cons z t ih =>
    intro c r h
    by_cases hz : p z = true
    · rw [List.dropWhile_cons_of_pos hz] at h
      exact ih h
    · rw [List.dropWhile_cons_of_neg (by simpa using hz)] at h
      cases h
      simpa using hz

theorem noWW_snoc (a : Char) :
    ∀ l : List Char, noWW (l ++ [a]) =
      (noWW l &&
        (match l.getLast? with
         | some b => !(jsWs b && jsWs a)
         | none => true)) := by
  intro l
  induction l with
  | nil => rfl
  | cons x t ih =>
    cases t with
    | nil =>
      show noWW [x, a] = (noWW [x] && (!(jsWs x && jsWs a)))
      rw [noWW_cons2]
      show ((!(jsWs x && jsWs a)) && noWW [a]) = _
      simp [noWW]
    | cons y t2 =>
      show noWW (x :: y :: (t2 ++ [a])) = _
      rw [noWW_cons2]
      have ih2 : noWW (y :: (t2 ++ [a])) =
          (noWW (y :: t2) &&
            (match (y :: t2).getLast? with
             | some b => !(jsWs b && jsWs a)
             | none => true)) := ih
      rw [ih2, List.getLast?_cons_cons, noWW_cons2, Bool.and_assoc]

theorem noWW_reverse : ∀ l : List Char, noWW l.reverse = noWW l := by
  intro l
  induction l with
  | nil => rfl
  | cons c t ih =>
    rw [List.reverse_cons, noWW_snoc, ih, List.getLast?_reverse]
    cases t with
    | nil => rfl
    | cons d t2 =>
      rw [noWW_cons2]
      show (noWW (d :: t2) && (!(jsWs d && jsWs c))) =
        ((!(jsWs c && jsWs d)) && noWW (d :: t2))
      rw [Bool.and_comm (jsWs d) (jsWs c), Bool.and_comm]

theorem noWW_trimR {l : List Char} (h : noWW l = true) :
    noWW (trimR l) = true := by
  unfold trimR
  rw [noWW_reverse]
  refine noWW_dropWhile jsWs _ ?_
  rw [noWW_reverse]
  exact h

theorem noWW_jsTrim {l : List Char} (h : noWW l = true) :
    noWW (jsTrim l) = true :=
  noWW_trimR (noWW_dropWhile jsWs _ h)

theorem jsTrim_idem (l : List Char) : jsTrim (jsTrim l) = jsTrim l := by
  unfold jsTrim
  cases hu : trimL l with
  | nil =>
    show trimR (trimL (trimR [])) = trimR []
    rfl
  | cons c r =>
    have hc : jsWs c = false := dropWhile_head_false jsWs hu
    have h1 : trimR (c :: r) = c :: trimR r := trimR_cons hc r
    rw [h1]
    show trimR (trimL (c :: trimR r)) = c :: trimR r
    unfold trimL
    rw [List.dropWhile_cons_of_neg (by simp [hc])]
    rw [← h1, trimR_idem, h1]

theorem rule6_idem (u : List Char) :
    jsTrim (collapseWs false (jsTrim (collapseWs false u))) =
      jsTrim (collapseWs false u) := by
  have hv : noWW (collapseWs false u) = true := collapseWs_noWW u false
  have hw : noWW (jsTrim (collapseWs false u)) = true := noWW_jsTrim hv
  rw [collapseWs_id _ hw, jsTrim_idem]

theorem groupLoop_eq_map (mc ms xs : Nat) :
    ∀ (l cur : List String) (n : Nat),
      groupLoop mc ms xs l cur n =
        (groupPartsLoop mc ms xs l cur n).map joinSp := by
  intro l
  induction l with
  | nil =>
    intro cur n
    by_cases h : cur.isEmpty <;> simp [groupLoop, groupPartsLoop, h]
  | cons s rest ih =>
    intro cur n
    simp only [groupLoop, groupPartsLoop]
    split_ifs <;> simp [ih]

theorem groupPartsLoop_flatten (mc ms xs : Nat) :
    ∀ (l cur : List String) (n : Nat),
      (groupPartsLoop mc ms xs l cur n).flatten = cur ++ l := by
  intro l
  induction l with
  | nil =>
    intro cur n
    by_cases h : cur.isEmpty
    · simp [groupPartsLoop, h, List.isEmpty_iff.mp h]
    · simp [groupPartsLoop, h]
  | cons s rest ih =>
    intro cur n
    simp only [groupPartsLoop]
    split_ifs <;> simp [ih]

theorem groupPartsLoop_ne_nil (mc ms xs : Nat) (hms : 1 ≤ ms)
    (hxs : 1 ≤ xs) :
    ∀ (l cur : List String) (n : Nat),
      ∀ p ∈ groupPartsLoop mc ms xs l cur n, p ≠ [] := by
  intro l
  induction l with
  | nil =>
    intro cur n p hp
    simp only [groupPartsLoop] at hp
    split at hp
    case isTrue hc => simp at hp
    case isFalse hc =>
      rw [List.mem_singleton] at hp
      subst hp
      intro habs
      rw [habs] at hc
      exact hc rfl
  | cons s rest ih =>
    intro cur n p hp
    simp only [groupPartsLoop] at hp
    by_cases hcond : xs ≤ cur.length ∨
        ms ≤ cur.length ∧ mc < n + (if n = 0 then 0 else 1) + s.length
    · rw [if_pos hcond] at hp
      rcases List.mem_cons.mp hp with hc | hc
      · subst hc
        have hlen : 0 < p.length := by
          rcases hcond with h | h
          · omega
          · obtain ⟨h1, _⟩ := h
            omega
        exact List.length_pos.mp hlen
      · exact ih _ _ p hc
    · rw [if_neg hcond] at hp
      exact ih _ _ p hp

theorem joinSp_ne_empty {p : List String} (hne : p ≠ [])
    (hall : ∀ s ∈ p, s ≠ "") : joinSp p ≠ "" := by
  cases p with
  | nil => exact absurd rfl hne
  | cons x rest =>
    cases rest with
    | nil => exact hall x (List.mem_cons_self x [])
    | cons y t =>
      show x ++ " " ++ joinSp (y :: t) ≠ ""
      intro habs
      have hd := congrArg String.data habs
      simp [String.data_append] at hd

theorem sanitizeCore_form (l : List Char) :
    ∃ u, sanitizeCore l = jsTrim (collapseWs false u) := by
  unfold sanitizeCore
  by_cases h : l.isEmpty = true
  · rw [if_pos h]
    exact ⟨[], rfl⟩
  · rw [if_neg h]
    exact ⟨_, rfl⟩

theorem sanitizeCore_fix (l : List Char)
    (h : ∀ c ∈ sanitizeCore l, c ≠ '-' ∧ c ≠ '–' ∧ c ≠ '—') :
    sanitizeCore (sanitizeCore l) = sanitizeCore l := by
  have hdash : '-' ∉ sanitizeCore l := fun hm => (h _ hm).1 rfl
  have hen : '–' ∉ sanitizeCore l := fun hm => (h _ hm).2.1 rfl
  have hem : '—' ∉ sanitizeCore l := fun hm => (h _ hm).2.2 rfl
  obtain ⟨u, hu⟩ := sanitizeCore_form l
  set t := sanitizeCore l with ht
  by_cases hte : t.isEmpty = true
  · rw [List.isEmpty_iff.mp hte]
    rfl
  · show sanitizeCore t = t
    simp only [sanitizeCore]
    rw [if_neg hte]
    rw [scanR1_id _ _ _ hdash]
    rw [scanM_id mRange (fun _ _ hx => mRange_none hx) _ _ hdash]
    rw [scanM_id mHyphenWord (fun _ _ hx => mHyphenWord_none hx) _ _ hdash]
    rw [scanNeg_id _ _ _ hdash]
    rw [scanM_id mCurrencyNeg (fun _ _ hx => mCurrencyNeg_none hx) _ _ hdash]
    rw [scanM_id mNegPercent (fun _ _ hx => mNegPercent_none hx) _ _ hdash]
    rw [dashPause_id _ hen hem]
    rw [hu]
    exact rule6_idem u

theorem getD_range_map {α} (f : Nat → α) (d : α) {chs ch : Nat}
    (h : ch < chs) : ((List.range chs).map f).getD ch d = f ch := by
  rw [List.getD_eq_getElem?_getD]
  simp [List.getElem?_map, List.getElem?_range, h]

theorem getD_mem_of_lt {α} (l : List α) (d : α) {n : Nat}
    (h : n < l.length) : l.getD n d ∈ l := by
  rw [List.getD_eq_getElem l d h]
  exact List.getElem_mem h

theorem typedArraySet_at (P seg : List ℚ) (rest : Nat) :
    typedArraySet (P ++ List.replicate (seg.length + rest) 0) seg P.length
      = (P ++ seg) ++ List.replicate rest 0 := by
  unfold typedArraySet
  have h1 : (P ++ List.replicate (seg.length + rest) 0).take P.length = P :=
    List.take_left P _
  have h2 : (P ++ List.replicate (seg.length + rest) 0).drop
      (P.length + seg.length) = List.replicate rest 0 := by
    rw [List.drop_append, List.drop_replicate]
    congr 1
    omega
  rw [h1, h2, List.append_assoc]

theorem sum_map_const {α} (l : List α) (k : Nat) :
    (l.map (fun _ => k)).sum = l.length * k := by
  induction l with
  | nil => simp
  | cons a t ih =>
    simp [ih, Nat.succ_mul, Nat.add_comm]

/-- Invariant of the merge fold, per channel: starting from a channel that
holds an already-written prefix followed by exactly enough zeros, copying
every segment at the running offset produces the prefix followed by the
concatenation of the segments' channel data. -/
theorem mergeFold_channel (chs : Nat) :
    ∀ (bufs : List AudioBuffer) (dst : List (List ℚ)) (off : Nat)
      (P : List ℚ) (ch : Nat), ch < chs →
      (∀ b ∈ bufs, b.channelData.length = chs ∧
          ∀ cd ∈ b.channelData, cd.length = b.length) →
      dst.getD ch [] =
        P ++ List.replicate ((bufs.map AudioBuffer.length).sum) 0 →
      off = P.length →
      ((bufs.foldl
          (fun acc b => (copyChans chs acc.1 b acc.2, acc.2 + b.length))
          (dst, off)).1).getD ch []
        = P ++ (bufs.map (fun b => b.channelData.getD ch [])).flatten := by
  intro bufs
  induction bufs with
  | nil =>
    intro dst off P ch _ _ hdst _
    simpa using hdst
  | cons b bs ih =>
    intro dst off P ch hch hwf hdst hoff
    have hwb := hwf b (List.mem_cons_self b bs)
    have hseg : (b.channelData.getD ch []).length = b.length := by
      have hm : b.channelData.getD ch [] ∈ b.channelData :=
        getD_mem_of_lt _ _ (by rw [hwb.1]; exact hch)
      exact hwb.2 _ hm
    have hstep : (copyChans chs dst b off).getD ch []
        = (P ++ b.channelData.getD ch []) ++
            List.replicate ((bs.map AudioBuffer.length).sum) 0 := by
      unfold copyChans
      rw [getD_range_map _ _ hch, hdst, hoff]
      have : (b :: bs).map AudioBuffer.length = b.length :: bs.map AudioBuffer.length := rfl
      rw [this, List.sum_cons, ← hseg]
      exact typedArraySet_at P (b.channelData.getD ch []) _
    have hrec := ih (copyChans chs dst b off) (off + b.length)
      (P ++ b.channelData.getD ch []) ch hch
      (fun x hx => hwf x (List.mem_cons_of_mem b hx))
      (by rw [hstep])
      (by rw [List.length_append, hoff, hseg])
    calc (((b :: bs).foldl
        (fun acc b => (copyChans chs acc.1 b acc.2, acc.2 + b.length))
        (dst, off)).1).getD ch []
        = ((bs.foldl
            (fun acc b => (copyChans chs acc.1 b acc.2, acc.2 + b.length))
            (copyChans chs dst b off, off + b.length)).1).getD ch [] := rfl
      _ = (P ++ b.channelData.getD ch []) ++
            (bs.map (fun x => x.channelData.getD ch [])).flatten := hrec
      _ = P ++ ((b :: bs).map (fun x => x.channelData.getD ch [])).flatten := by
          simp

theorem wavHeader_length (buf : AudioBuffer) : (wavHeader buf).length = 44 := by
  simp [wavHeader, asciiBytes, u32v, u16v]

theorem int16Bytes_length (v : Int) : (int16Bytes v).length = 2 := rfl

theorem interleavedData_length (buf : AudioBuffer) :
    (interleavedData buf).length =
      buf.length * (buf.numberOfChannels * 2) := by
  unfold interleavedData
  rw [List.length_flatten, List.map_map]
  have hrow : ∀ i : Nat,
      ((List.range buf.numberOfChannels).map
        (fun ch =>
          int16Bytes
            (floatTo16 ((buf.channelData.getD ch []).getD i 0)))).flatten.length
      = buf.numberOfChannels * 2 := by
    intro i
    rw [List.length_flatten, List.map_map]
    have : ((List.range buf.numberOfChannels).map
        (List.length ∘ fun ch =>
          int16Bytes (floatTo16 ((buf.channelData.getD ch []).getD i 0))))
        = (List.range buf.numberOfChannels).map (fun _ => 2) := by
      apply List.map_congr_left
      intro a _
      rfl
    rw [this, sum_map_const, List.length_range]
  have : ((List.range buf.length).map
      (List.length ∘ fun i =>
        ((List.range buf.numberOfChannels).map
          (fun ch =>
            int16Bytes
              (floatTo16 ((buf.channelData.getD ch []).getD i 0)))).flatten))
      = (List.range buf.length).map (fun _ => buf.numberOfChannels * 2) := by
    apply List.map_congr_left
    intro a _
    exact hrow a
  rw [this, sum_map_const, List.length_range]

/-! ## Claim theorems -/

/-- Claim C4 (code evaluated at the failing input): on the Scenario A text
the normalizer does rewrite the range to the word form, but the negative
percentage comes out as the word negative, the digits and a literal percent
sign — not the spelled-out percent the claim (and the source's own rule-4.2
comment) promise, because rule 4 consumes the minus sign before rule 4.2
runs. -/
theorem C4_scenarioA_normalize_eval :
    sanitizeForTTS scenarioAInput =
      "Dr. Smith said the rate is negative 5%. That's a 3 to 5 point drop."
    ∧ sanitizeForTTS scenarioAInput ≠
      "Dr. Smith said the rate is negative 5 percent. That's a 3 to 5 point drop." := by
  constructor
  · decide
  · decide

/-- Claim C7: segmenting the normalized Scenario A text does not split at
the honorific (its period is sentinel-protected) but does split before the
second sentence, yielding exactly two sentences with every sentinel
restored to a period. -/
theorem C7_scenarioA_segment :
    splitIntoSentencesSmart (sanitizeForTTS scenarioAInput) =
      ["Dr. Smith said the rate is negative 5%.",
       "That's a 3 to 5 point drop."]
    ∧ ∀ s ∈ splitIntoSentencesSmart (sanitizeForTTS scenarioAInput),
        '§' ∉ s.data := by
  constructor
  · decide
  · decide

/-- Claim C5 (counterexample): the normalizer is not idempotent — a chained
numeric range is rewritten once on the first application and again on the
second, so applying it twice differs from applying it once. -/
theorem C5_counterexample :
    sanitizeForTTS "1-2-3" = "1 to 2-3"
    ∧ sanitizeForTTS (sanitizeForTTS "1-2-3") = "1 to 2 to 3"
    ∧ sanitizeForTTS (sanitizeForTTS "1-2-3") ≠ sanitizeForTTS "1-2-3" := by
  refine ⟨by decide, by decide, by decide⟩

/-- Claim C6 (counterexample): a sentence sequence containing an empty
sentence yields an empty chunk, so with the default parameters not every
chunk of a nonempty input is nonempty. -/
theorem C6_counterexample :
    groupSentencesToChunks 400 2 3 [""] = [""]
    ∧ "" ∈ groupSentencesToChunks 400 2 3 [""]
    ∧ ([""] : List String) ≠ [] := by
  refine ⟨by decide, by decide, by decide⟩

/-- Claim C10 (counterexample): an input containing the sentinel character
whose every returned sentence nevertheless is a substring of the input —
the restored sentence coincides with an earlier literal occurrence. -/
theorem C10_counterexample :
    splitIntoSentencesSmart "Z a. Z a§" = ["Z a.", "Z a."]
    ∧ (∀ s ∈ splitIntoSentencesSmart "Z a. Z a§",
        occursIn s.data "Z a. Z a§".data = true)
    ∧ '§' ∈ "Z a. Z a§".data := by
  refine ⟨by decide, by decide, by decide⟩

/-- Claim C1 (code evaluated at the failing input): newConversation leaves
the chunk-object synthesis cache untouched, so after a full clear a speak
on the identical text still hits the cache — the same handle is returned,
no new synthesis fetch is issued and the handle was never revoked. -/
theorem C1_objCache_survives_clear :
    (∀ st : TtsCacheState, (newConversation st).ttsObjCache = st.ttsObjCache)
    ∧ (let st0 : TtsCacheState := ⟨[], [], [], 0, 0⟩
       let r1 := getTtsAudioObj st0 "Hello there." "en"
       let r3 := getTtsAudioObj (newConversation r1.2) "Hello there." "en"
       r3.1 = r1.1 ∧ r3.2.fetchCount = 1 ∧ r3.2.revoked = []) := by
  refine ⟨fun st => rfl, by decide⟩

/-- Claim C2 (counterexample): after a failed start of the first enqueued
handle the failure is swallowed, but the failed item is not treated as
finished — it stays at the head of the queue with the element paused, and
the subsequently enqueued handle is never assigned to the sink. -/
theorem C2_counterexample :
    (let pf : Nat → Bool := fun h => h = 2
     let st1 := enqueueAndPlay pf ⟨[], ⟨true, none⟩⟩ 1
     let st2 := enqueueAndPlay pf st1 2
     st1.audio.paused = true ∧ st1.audio.src = some 1 ∧ st1.queue = [1]
     ∧ st2.queue = [1, 2] ∧ st2.audio.src = some 1
     ∧ st2.audio.paused = true) := by
  decide

/-- Claim C3 (code evaluated at the failing input): with one recorded
segment, the first replay performs a merge and stores the merged handle,
and a second immediate replay performs the decode-encode work again
(revoking the first merged handle) instead of reusing the cached clip. -/
theorem C3_second_replay_recomputes :
    (let st0 : CurrentAnswerAudio :=
       { key := "ans", items := [[0, 1]], mergedUrl := none }
     let r1 := speakTextSmartReplay st0 0 0
     let r2 := speakTextSmartReplay r1.state r1.mergeComputations r1.nextUrl
     r1.mergeComputations = 1 ∧ r1.state.mergedUrl = some 0
     ∧ r2.mergeComputations = 2 ∧ r2.revokedUrls = [0]
     ∧ r2.playedUrl = some 1) := by
  decide

/-- Claim C9: the replay branch never compares the ledger key with the text
being replayed — whenever segments are recorded, it plays the merge of
exactly those segments, the same action for any two texts and for any
re-keyed ledger. -/
theorem C9_replay_ignores_key (st : CurrentAnswerAudio) (t1 t2 : String)
    (h : st.items ≠ []) :
    replayDispatch st t1 = ReplayAction.playMerged st.items
    ∧ replayDispatch st t1 = replayDispatch st t2
    ∧ ∀ k, replayDispatch { st with key := k } t1 = replayDispatch st t1 := by
  have hne : st.items.isEmpty = false := by
    cases hi : st.items with
    | nil => exact absurd hi h
    | cons a t => rfl
  refine ⟨?_, ?_, ?_⟩ <;> simp [replayDispatch, hne]

/-- Witness for C9 at a concrete ledger and two different texts. -/
theorem C9_replay_ignores_key_witness :
    (([[3]] : List (List Int)) ≠ []) ∧
    replayDispatch ⟨"old answer", [[3]], none⟩ "new text" =
      ReplayAction.playMerged [[3]] := by
  refine ⟨by decide, ?_⟩
  exact (C9_replay_ignores_key ⟨"old answer", [[3]], none⟩ "new text" "x"
    (by decide)).1

/-- Claim C8: merging a nonempty list of decoded segments of uniform
channel count (and consistent per-channel lengths) yields a clip whose
frame count is the sum of the segments' frame counts and whose every
channel is the in-order concatenation of the segments' channel data; the
emitted container consists of a 44-byte header followed by a data section
of exactly frames times channels 16-bit little-endian samples. -/
theorem C8_merge_wav (decoded : List AudioBuffer) (chs : Nat)
    (hne : decoded ≠ [])
    (hch : ∀ b ∈ decoded, b.numberOfChannels = chs)
    (hwf : ∀ b ∈ decoded, b.channelData.length = chs ∧
        ∀ cd ∈ b.channelData, cd.length = b.length) :
    (mergeBuffers decoded).length = (decoded.map AudioBuffer.length).sum
    ∧ (mergeBuffers decoded).numberOfChannels = chs
    ∧ (∀ ch, ch < chs →
        (mergeBuffers decoded).channelData.getD ch []
          = (decoded.map (fun b => b.channelData.getD ch [])).flatten)
    ∧ (audioBufferToWavBlob (mergeBuffers decoded)).length
        = 44 + (decoded.map AudioBuffer.length).sum * (chs * 2)
    ∧ (audioBufferToWavBlob (mergeBuffers decoded)).drop 44
        = interleavedData (mergeBuffers decoded)
    ∧ (interleavedData (mergeBuffers decoded)).length
        = (decoded.map AudioBuffer.length).sum * (chs * 2) := by
  have hhead : decoded.headD (createBuffer 0 0 0) ∈ decoded := by
    cases decoded with
    | nil => exact absurd rfl hne
    | cons d t => exact List.mem_cons_self d t
  have hchs : (decoded.headD (createBuffer 0 0 0)).numberOfChannels = chs :=
    hch _ hhead
  have hlen : (mergeBuffers decoded).length =
      (decoded.map AudioBuffer.length).sum := rfl
  have hnum : (mergeBuffers decoded).numberOfChannels = chs := hchs
  have hchan : ∀ ch, ch < chs →
      (mergeBuffers decoded).channelData.getD ch []
        = (decoded.map (fun b => b.channelData.getD ch [])).flatten := by
    intro ch hlt
    show ((decoded.foldl
        (fun acc b =>
          (copyChans (decoded.headD (createBuffer 0 0 0)).numberOfChannels
            acc.1 b acc.2, acc.2 + b.length))
        ((createBuffer (decoded.headD (createBuffer 0 0 0)).numberOfChannels
          ((decoded.map AudioBuffer.length).sum)
          (decoded.headD (createBuffer 0 0 0)).sampleRate).channelData,
         0)).1).getD ch []
      = (decoded.map (fun b => b.channelData.getD ch [])).flatten
    rw [hchs]
    have hinit : ((createBuffer chs ((decoded.map AudioBuffer.length).sum)
        (decoded.headD (createBuffer 0 0 0)).sampleRate).channelData).getD ch []
        = ([] : List ℚ) ++
          List.replicate ((decoded.map AudioBuffer.length).sum) 0 := by
      show ((List.replicate chs
          (List.replicate ((decoded.map AudioBuffer.length).sum) (0 : ℚ))).getD
          ch []) = _
      rw [List.getD_eq_getElem?_getD]
      simp [List.getElem?_replicate, hlt]
    have := mergeFold_channel chs decoded _ 0 [] ch hlt hwf hinit rfl
    simpa using this
  refine ⟨hlen, hnum, hchan, ?_, ?_, ?_⟩
  · show (wavHeader _ ++ interleavedData _).length = _
    rw [List.length_append, wavHeader_length, interleavedData_length,
      hlen, hnum]
  · show (wavHeader _ ++ interleavedData _).drop 44 = _
    rw [show (44 : Nat) = (wavHeader (mergeBuffers decoded)).length from
      (wavHeader_length _).symm]
    exact List.drop_left _ _
  · rw [interleavedData_length, hlen, hnum]

/-- Witness for C8: one mono segment of two silent samples. -/
theorem C8_merge_wav_witness :
    (([⟨1, 8000, 2, [[0, 0]]⟩] : List AudioBuffer) ≠ []
     ∧ (∀ b ∈ ([⟨1, 8000, 2, [[0, 0]]⟩] : List AudioBuffer),
          b.numberOfChannels = 1)
     ∧ (∀ b ∈ ([⟨1, 8000, 2, [[0, 0]]⟩] : List AudioBuffer),
          b.channelData.length = 1 ∧ ∀ cd ∈ b.channelData,
            cd.length = b.length))
    ∧ (mergeBuffers [⟨1, 8000, 2, [[0, 0]]⟩]).length =
        (([⟨1, 8000, 2, [[0, 0]]⟩] : List AudioBuffer).map
          AudioBuffer.length).sum
    ∧ (audioBufferToWavBlob (mergeBuffers [⟨1, 8000, 2, [[0, 0]]⟩])).length
        = 44 + (([⟨1, 8000, 2, [[0, 0]]⟩] : List AudioBuffer).map
            AudioBuffer.length).sum * (1 * 2) := by
  have h := C8_merge_wav [⟨1, 8000, 2, [[0, 0]]⟩] 1 (by decide)
    (by decide) (by decide)
  exact ⟨⟨by decide, by decide, by decide⟩, h.1, h.2.2.2.1⟩

/-- Claim C5 (amended): the normalizer is idempotent on every input whose
normalized form is free of hyphen and dash characters (rules 1 to 5 then
find nothing to rewrite and the whitespace rule is idempotent); it is not
idempotent in general — chained numeric ranges leave a hyphen behind that a
second application rewrites further (see the counterexample). -/
theorem C5_amended (s : String)
    (h : ∀ c ∈ (sanitizeForTTS s).data, c ≠ '-' ∧ c ≠ '–' ∧ c ≠ '—') :
    sanitizeForTTS (sanitizeForTTS s) = sanitizeForTTS s := by
  show String.mk (sanitizeCore (sanitizeCore s.data)) =
    String.mk (sanitizeCore s.data)
  congr 1
  exact sanitizeCore_fix s.data h

/-- Witness for C5 at an input whose normalized form is dash-free. -/
theorem C5_amended_witness :
    (∀ c ∈ (sanitizeForTTS "3-5").data, c ≠ '-' ∧ c ≠ '–' ∧ c ≠ '—')
    ∧ sanitizeForTTS (sanitizeForTTS "3-5") = sanitizeForTTS "3-5" := by
  refine ⟨by decide, ?_⟩
  exact C5_amended "3-5" (by decide)

/-- Claim C6 (amended): the chunks are exactly the space-joins of a
partition of the sentence sequence — no sentence duplicated, dropped or
reordered, every block nonempty — the output is empty exactly when the
input is, and when every sentence is a nonempty string every chunk is a
nonempty string. -/
theorem C6_amended (mc ms xs : Nat) (sents : List String)
    (hms : 1 ≤ ms) (hxs : 1 ≤ xs) :
    groupSentencesToChunks mc ms xs sents =
      (groupParts mc ms xs sents).map joinSp
    ∧ (groupParts mc ms xs sents).flatten = sents
    ∧ (∀ p ∈ groupParts mc ms xs sents, p ≠ [])
    ∧ (groupSentencesToChunks mc ms xs sents = [] ↔ sents = [])
    ∧ ((∀ s ∈ sents, s ≠ "") →
        ∀ ch ∈ groupSentencesToChunks mc ms xs sents, ch ≠ "") := by
  have hmap : groupSentencesToChunks mc ms xs sents =
      (groupParts mc ms xs sents).map joinSp :=
    groupLoop_eq_map mc ms xs sents [] 0
  have hflat : (groupParts mc ms xs sents).flatten = sents :=
    groupPartsLoop_flatten mc ms xs sents [] 0
  have hnn : ∀ p ∈ groupParts mc ms xs sents, p ≠ [] :=
    groupPartsLoop_ne_nil mc ms xs hms hxs sents [] 0
  refine ⟨hmap, hflat, hnn, ?_, ?_⟩
  · constructor
    · intro hch
      rw [hmap] at hch
      have hparts : groupParts mc ms xs sents = [] :=
        List.map_eq_nil_iff.mp hch
      rw [← hflat, hparts]
      rfl
    · intro hs
      subst hs
      rfl
  · intro hall ch hch
    rw [hmap] at hch
    rcases List.mem_map.mp hch with ⟨p, hp, hpe⟩
    rw [← hpe]
    refine joinSp_ne_empty (hnn p hp) ?_
    intro s hsp
    refine hall s ?_
    rw [← hflat]
    exact List.mem_flatten.mpr ⟨p, hp, hsp⟩

/-- Witness for C6 at the Scenario B sentence list with the default
parameters. -/
theorem C6_amended_witness :
    ((1 : Nat) ≤ 2 ∧ (1 : Nat) ≤ 3)
    ∧ (groupParts 400 2 3 ["One.", "Two.", "Three.", "Four.", "Five."]).flatten
        = ["One.", "Two.", "Three.", "Four.", "Five."] := by
  refine ⟨⟨by decide, by decide⟩, ?_⟩
  exact (C6_amended 400 2 3 ["One.", "Two.", "Three.", "Four.", "Five."]
    (by decide) (by decide)).2.1

/-- Claim C10 (amended): sentinel restoration is applied to every sentinel
character of the split input, not only those introduced by abbreviation
protection — no returned sentence ever contains the sentinel, and an input
containing one can yield a sentence that occurs nowhere in the input (though
not every such input does, see the counterexample). -/
theorem C10_amended :
    (∀ text : String, ∀ s ∈ splitIntoSentencesSmart text, '§' ∉ s.data)
    ∧ splitIntoSentencesSmart "a§b" = ["a.b"]
    ∧ occursIn "a.b".data "a§b".data = false := by
  refine ⟨?_, by decide, by decide⟩
  intro text s hs
  unfold splitIntoSentencesSmart at hs
  by_cases hempty : text.data.isEmpty
  · simp [hempty] at hs
  · simp only [hempty, if_false] at hs
    rcases List.mem_map.mp hs with ⟨p, hp, hps⟩
    rcases List.mem_filter.mp hp with ⟨hp2, _⟩
    rcases List.mem_map.mp hp2 with ⟨q, hq, hqp⟩
    rcases List.mem_map.mp hq with ⟨r, _, hrq⟩
    intro habs
    rw [← hps] at habs
    rw [← hqp] at habs
    have : '§' ∈ q := mem_of_jsTrim habs
    rw [← hrq] at this
    exact sentinel_not_mem_restore r this

/-- Claim C2 (amended): a failed start is swallowed — enqueueAndPlay
returns normally with the element paused on the failed handle — but the
failed item is not treated as finished: it stays at the queue head, the
following enqueue only appends, and every further enqueue leaves the sink
assignment unchanged, so subsequently queued handles are never started. -/
theorem C2_amended (playOk : Nat → Bool) (st : TtsQueueState) (h1 h2 : Nat)
    (hq : st.queue = []) (hp : st.audio.paused = true)
    (hfail : playOk h1 = false) :
    (enqueueAndPlay playOk st h1).audio =
      { paused := true, src := some h1 }
    ∧ (enqueueAndPlay playOk (enqueueAndPlay playOk st h1) h2).queue =
      [h1, h2]
    ∧ (enqueueAndPlay playOk (enqueueAndPlay playOk st h1) h2).audio =
      { paused := true, src := some h1 }
    ∧ ∀ h3, (enqueueAndPlay playOk
        (enqueueAndPlay playOk (enqueueAndPlay playOk st h1) h2) h3).audio =
      { paused := true, src := some h1 } := by
  have e1 : enqueueAndPlay playOk st h1 =
      { queue := [h1], audio := { paused := true, src := some h1 } } := by
    simp [enqueueAndPlay, hq, hp, tryPlay, hfail]
  refine ⟨by rw [e1], ?_, ?_, ?_⟩
  · rw [e1]; simp [enqueueAndPlay]
  · rw [e1]; simp [enqueueAndPlay]
  · intro h3
    rw [e1]; simp [enqueueAndPlay]

/-- Witness for C2 at the idle initial state with two concrete handles. -/
theorem C2_amended_witness :
    (([] : List Nat) = [] ∧ true = true
      ∧ (fun h => decide (h = 2)) 1 = false)
    ∧ (enqueueAndPlay (fun h => decide (h = 2))
        (enqueueAndPlay (fun h => decide (h = 2)) ⟨[], ⟨true, none⟩⟩ 1) 2).audio =
      { paused := true, src := some 1 } := by
  refine ⟨⟨rfl, rfl, by decide⟩, ?_⟩
  exact (C2_amended (fun h => decide (h = 2)) ⟨[], ⟨true, none⟩⟩ 1 2 rfl rfl
    (by decide)).2.2.1

end HPAI
